import Mathlib

/-!
Shallow embedding of `gensim/models/keyedvectors.py` (the entity→vector
store, the similarity query engine, the fastText subword composer and the
legacy bucket-unpacking routine), together with proofs settling the frozen
claims about that code.

Modelling conventions:
* Python floats are modelled as exact rationals (`ℚ`); `numpy` square roots
  (used only to normalize vectors) are modelled by an explicit square-root
  parameter `sq : ℚ → ℚ`, since ℚ has no exact square root.  Theorems that
  depend on the numeric value of a square root carry local hypotheses about
  `sq` at the inputs actually used; `ratSqrt` below is a concrete
  instantiation used by witnesses.
* A `numpy` matrix is a list of rows (`List (List ℚ)`).  Out-of-range row
  indexing (an `IndexError` in Python) is modelled by `List.getD`/`List.get?`;
  theorems about well-formed stores never hit the default.
* Division by zero (a `nan`/warning in numpy) is ℚ's `x / 0 = 0`; no settled
  claim depends on the value produced there.
* Python `dict`s (`self.vocab`, `hash2index`) are association lists in
  insertion order, with value overwrite on duplicate-key insertion, matching
  Python 3.7+ iteration-order semantics.
* Python exceptions (`KeyError`, `IndexError`, `ValueError`, `TypeError`)
  become an `Except` error type.
-/

namespace Gensim

/-- One row / one vector: a list of rationals. -/
abbrev Vec := List ℚ

/-- A dense matrix: a list of rows. -/
abbrev Mat := List Vec

/-- Error kinds, mirroring the Python exceptions raised by the source. -/
inductive KVErr where
  | keyError
  | indexError
  | valueError
  | typeError
  deriving DecidableEq, Repr

/-- Elementwise sum of two vectors (`numpy +`; well-formed callers pass
equal lengths, `zipWith` truncates otherwise). -/
def vadd (a b : Vec) : Vec := List.zipWith (· + ·) a b

/-- Scalar multiple of a vector (`weight * vec`). -/
def vsmul (c : ℚ) (v : Vec) : Vec := v.map (c * ·)

/-- Divide each component by a scalar (`vec / c`). -/
def vdiv (v : Vec) (c : ℚ) : Vec := v.map (· / c)

/-- Dot product (`numpy.dot` of two 1-D arrays). -/
def dotp (a b : Vec) : ℚ := (List.zipWith (· * ·) a b).sum

/-- The all-zeros vector (`np.zeros(n)`). -/
def zeroVec (n : Nat) : Vec := List.replicate n 0

/-- Squared L2 norm of a vector (`sum(vec ** 2)`). -/
def normSq (v : Vec) : ℚ := (v.map (fun x => x * x)).sum

/-- Sum of a list of vectors of common length `n`, starting from zero. -/
def vsumFrom (n : Nat) (l : List Vec) : Vec :=
  l.foldl vadd (zeroVec n)

/-- `gensim.matutils.unitvec` for a dense 1-D input with the default l2
norm: scale to unit length when the length is positive, otherwise return
the vector unchanged.  `sq` stands for the floating-point square root. -/
def unitvec (sq : ℚ → ℚ) (v : Vec) : Vec :=
  let veclen := sq (normSq v)
  if 0 < veclen then vdiv v veclen else v

/-- `_l2_norm(m)`: divide every row by its own length.  The source divides
unconditionally (no zero-length guard here, unlike `unitvec`). -/
def _l2_norm (sq : ℚ → ℚ) (m : Mat) : Mat :=
  m.map (fun row => vdiv row (sq (normSq row)))

/-- Integer square root by bounded search (structurally recursive, so it
evaluates inside the kernel): the largest `k ≤ n` with `k * k ≤ n`. -/
def isqrt (n : Nat) : Nat :=
  (List.range (n + 1)).foldl (fun a k => if k * k ≤ n then k else a) 0

/-- A concrete square-root instantiation for witnesses: the exact rational
square root when one exists, else `0` (mirroring that witnesses only feed it
perfect squares). -/
def ratSqrt (q : ℚ) : ℚ :=
  let n := isqrt q.num.toNat
  let d := isqrt q.den
  if 0 ≤ q ∧ n * n = q.num.toNat ∧ d * d = q.den then (n : ℚ) / (d : ℚ) else 0

/-! ### The vocabulary dictionary

`self.vocab` maps an entity string to a `Vocab` record; the only field the
settled claims touch is `index` (the `count` field is metadata the core
algorithms never read), so the dictionary is an association list
`String × Nat` in insertion order. -/

/-- Dictionary lookup: index of `k` in the vocab, first match. -/
def lookupIdx (d : List (String × Nat)) (k : String) : Option Nat :=
  (d.find? (fun p => p.1 = k)).map (fun p => p.2)

/-- Dictionary membership (`entity in self.vocab`). -/
def dictContains (d : List (String × Nat)) (k : String) : Bool :=
  (lookupIdx d k).isSome

/-- Dictionary insertion with Python semantics: overwrite the value if the
key exists, else append at the end (insertion order preserved). -/
def dictInsert (d : List (String × Nat)) (k : String) (v : Nat) : List (String × Nat) :=
  if (d.find? (fun p => p.1 = k)).isSome then
    d.map (fun p => if p.1 = k then (k, v) else p)
  else
    d ++ [(k, v)]

/-! ### BaseKeyedVectors / WordEmbeddingsKeyedVectors state -/

/-- The keyed-vector store: `BaseKeyedVectors` plus the
`WordEmbeddingsKeyedVectors` normalized-cache field.
`index2word` is the insertion-order entity list (`index2entity` aliases it);
`vectorsNorm` is `self.vectors_norm`, `none` for Python `None`. -/
structure KV where
  vectorSize : Nat
  vocab : List (String × Nat)
  vectors : Mat
  index2word : List String
  vectorsNorm : Option Mat
  deriving Repr

/-- Well-formedness of a store: the invariants the Python object maintains
(entity/index/row consistency).  The normalized cache, when present, has at
most as many rows as there are entities (it can be *shorter* after an
`add`, which is exactly the staleness settled under C1). -/
def WF (st : KV) : Prop :=
  (∀ p ∈ st.vocab, st.index2word.get? p.2 = some p.1) ∧
  st.index2word.Nodup ∧
  st.vocab.length = st.index2word.length ∧
  st.vectors.length = st.index2word.length ∧
  (∀ row ∈ st.vectors, row.length = st.vectorSize) ∧
  (match st.vectorsNorm with
   | none => True
   | some m => m.length ≤ st.index2word.length ∧
       ∀ row ∈ m, row.length = st.vectorSize)

instance (st : KV) : Decidable (WF st) := by
  unfold WF
  have : Decidable (match st.vectorsNorm with
      | none => True
      | some m => m.length ≤ st.index2word.length ∧
          ∀ row ∈ m, row.length = st.vectorSize) := by
    cases st.vectorsNorm <;> simp <;> infer_instance
  infer_instance

/-- `BaseKeyedVectors.get_vector`: the row owned by `entity`, or a
`KeyError` if absent. -/
def get_vector (st : KV) (entity : String) : Except KVErr Vec :=
  match lookupIdx st.vocab entity with
  | some idx =>
    match st.vectors.get? idx with
    | some row => .ok row
    | none => .error .indexError
  | none => .error .keyError

/-- `BaseKeyedVectors.add` (list-of-entities path).  The in-vocabulary mask
is computed against the *original* vocab; new entities are then inserted one
by one, each receiving index `len(vocab)` at its own insertion; rows for new
entities are stacked under the matrix; finally, when `replace` is set, rows
of pre-existing entities are overwritten in place.  Note the source never
touches `vectors_norm` here. -/
def add (st : KV) (entities : List String) (weights : Mat) (replace : Bool) : KV :=
  let pairs := entities.zip weights
  -- in_vocab_mask, against the original vocab
  let isOld : String → Bool := fun e => dictContains st.vocab e
  -- for idx in np.nonzero(~in_vocab_mask): vocab[entity] = Vocab(index=len(vocab)); index2entity.append
  let step := fun (acc : List (String × Nat) × List String) (e : String) =>
    if isOld e then acc
    else (dictInsert acc.1 e acc.1.length, acc.2 ++ [e])
  let acc1 := entities.foldl step (st.vocab, st.index2word)
  let vocab1 := acc1.1
  let i2w1 := acc1.2
  -- self.vectors = vstack((self.vectors, weights[~in_vocab_mask]))
  let newRows := (pairs.filter (fun p => ¬ isOld p.1)).map (fun p => p.2)
  let vecs1 := st.vectors ++ newRows
  -- if replace: self.vectors[in_vocab_idxs] = weights[in_vocab_mask]
  let vecs2 :=
    if replace then
      (pairs.filter (fun p => isOld p.1)).foldl
        (fun (m : Mat) p =>
          match lookupIdx vocab1 p.1 with
          | some idx => m.set idx p.2
          | none => m) vecs1
    else vecs1
  { st with vocab := vocab1, index2word := i2w1, vectors := vecs2 }

/-- `WordEmbeddingsKeyedVectors.init_sims`: compute the normalized cache
when it is absent (or when `replace` is forced); with `replace` the raw
matrix is destructively normalized, so `vectors` and the cache coincide. -/
def init_sims (sq : ℚ → ℚ) (st : KV) (replace : Bool) : KV :=
  match st.vectorsNorm, replace with
  | some _, false => st
  | none, false => { st with vectorsNorm := some (_l2_norm sq st.vectors) }
  | _, true =>
    { st with vectors := _l2_norm sq st.vectors,
              vectorsNorm := some (_l2_norm sq st.vectors) }

/-- `WordEmbeddingsKeyedVectors.word_vec`: the raw or cache-normalized row
for an in-vocabulary word.  With `use_norm` the source indexes
`self.vectors_norm` directly (a `TypeError` if the cache is `None`, an
`IndexError` if the row is out of range). -/
def word_vec (st : KV) (word : String) (useNorm : Bool) : Except KVErr Vec :=
  match lookupIdx st.vocab word with
  | none => .error .keyError
  | some idx =>
    if useNorm then
      match st.vectorsNorm with
      | none => .error .typeError
      | some m =>
        match m.get? idx with
        | some row => .ok row
        | none => .error .indexError
    else
      match st.vectors.get? idx with
      | some row => .ok row
      | none => .error .indexError

/-- One element of `most_similar`'s `positive`/`negative` lists: an entity
name, a raw vector, or either of those paired with an explicit weight. -/
inductive QEntry where
  | ent (w : String)
  | vec (v : Vec)
  | entW (w : String) (c : ℚ)
  | vecW (v : Vec) (c : ℚ)
  deriving Repr

/-- The default-weight wrapping step of `most_similar`:
`(word, 1.0) if isinstance(word, string_types + (ndarray,)) else word`. -/
def wrapDefault (c : ℚ) : QEntry → QEntry
  | .ent w => .entW w c
  | .vec v => .vecW v c
  | e => e

/-- The result of `most_similar`/`most_similar_cosmul`: either the full
score vector (`topn=None`, resp. falsy `topn`) or the ranked
`(word, score)` list. -/
inductive MSResult where
  | scores (ds : List ℚ)
  | ranked (rs : List (String × ℚ))
  deriving Repr, DecidableEq

/-- The descending-score order on candidate row indices, ties broken by
ascending index. -/
def rankRel (d : List ℚ) (i j : Nat) : Prop :=
  d.getD j 0 < d.getD i 0 ∨ (d.getD i 0 = d.getD j 0 ∧ i ≤ j)

instance (d : List ℚ) : DecidableRel (rankRel d) := fun i j => by
  unfold rankRel
  infer_instance

/-- Deterministic model of `gensim.matutils.argsort(x, reverse=True)`:
indices of `d` ordered by descending value, ties broken by ascending index
(numpy's comparison-based sorts are deterministic functions of the pairwise
comparison outcomes, which is all the settled claims rely on). -/
def argsortDesc (d : List ℚ) : List Nat :=
  (List.range d.length).insertionSort (rankRel d)

/-- The term-resolution loop of `most_similar`: walk the weighted entries,
collecting `weight * word_vec(word, use_norm=True)` (or the raw vector) in
order, and the set of in-vocabulary input indices (insertion-ordered,
deduplicated — a Python `set`). -/
def resolveGo (st : KV) : List QEntry → List Vec × List Nat →
    Except KVErr (List Vec × List Nat)
  | [], acc => .ok acc
  | e :: rest, acc =>
    match e with
    | .vecW v c => resolveGo st rest (acc.1 ++ [vsmul c v], acc.2)
    | .entW w c =>
      match word_vec st w true with
      | .error err => .error err
      | .ok x =>
        let aw :=
          match lookupIdx st.vocab w with
          | some idx => if idx ∈ acc.2 then acc.2 else acc.2 ++ [idx]
          | none => acc.2
        resolveGo st rest (acc.1 ++ [vsmul c x], aw)
    -- the bare cases are unreachable after `wrapDefault`; kept total
    | .ent w =>
      match word_vec st w true with
      | .error err => .error err
      | .ok x => resolveGo st rest (acc.1 ++ [x], acc.2)
    | .vec v => resolveGo st rest (acc.1 ++ [v], acc.2)

/-- The full term-resolution pass, from empty accumulators. -/
def resolveTerms (st : KV) (entries : List QEntry) :
    Except KVErr (List Vec × List Nat) :=
  resolveGo st entries ([], [])

/-- The shared ranked tail of both query variants:
`best = matutils.argsort(dists, topn=topn + len(all_words), reverse=True)`,
drop input indices, truncate to `topn`, pair each surviving index with its
entity and score. -/
def rankedResult (i2w : List String) (dists : List ℚ) (aw : List Nat)
    (n : Nat) : List (String × ℚ) :=
  let best := (argsortDesc dists).take (n + aw.length)
  ((best.filter (fun sim => sim ∉ aw)).map
    (fun sim => (i2w.getD sim "", dists.getD sim 0))).take n

/-- `WordEmbeddingsKeyedVectors.most_similar` (brute-force path; the
optional external `indexer` collaborator is not modelled).  `topn = none`
is Python `topn=None`. -/
def most_similar (sq : ℚ → ℚ) (st : KV) (positive negative : List QEntry)
    (topn : Option Nat) (restrict : Option Nat) : Except KVErr MSResult :=
  -- if topn is not None and topn < 1: return []
  if topn = some 0 then .ok (.ranked []) else
  let st1 := init_sims sq st false
  let pos := positive.map (wrapDefault 1)
  let neg := negative.map (wrapDefault (-1))
  match resolveTerms st1 (pos ++ neg) with
  | .error err => .error err
  | .ok (mean, allWords) =>
    -- if not mean: raise ValueError
    if mean = [] then .error .valueError else
    let meanv := unitvec sq (vdiv (vsumFrom st1.vectorSize mean) mean.length)
    let vn := st1.vectorsNorm.getD []
    let limited := match restrict with | none => vn | some r => vn.take r
    let dists := limited.map (fun row => dotp row meanv)
    match topn with
    | none => .ok (.scores dists)
    | some n => .ok (.ranked (rankedResult st1.index2word dists allWords n))

/-- One element of `most_similar_cosmul`'s inputs: an entity name or a raw
vector (this variant has no explicit-weight pairs). -/
inductive CmEntry where
  | ent (w : String)
  | vec (v : Vec)
  deriving Repr

/-- Elementwise product of a list of equal-length score rows
(`numpy.prod(..., axis=0)`; the empty product is all-ones). -/
def prodRows (n : Nat) (rows : List (List ℚ)) : List ℚ :=
  rows.foldl (List.zipWith (· * ·)) (List.replicate n 1)

/-- The term-resolution list comprehension of `most_similar_cosmul`:
`word_vec(word, use_norm=True) if isinstance(word, str) else word`. -/
def resolveCm (st : KV) : List CmEntry → Except KVErr (List Vec)
  | [] => .ok []
  | e :: rest =>
    match (match e with
           | CmEntry.ent w => word_vec st w true
           | CmEntry.vec v => .ok v) with
    | .error err => .error err
    | .ok x => (resolveCm st rest).map (fun xs => x :: xs)

/-- `WordEmbeddingsKeyedVectors.most_similar_cosmul`. -/
def most_similar_cosmul (sq : ℚ → ℚ) (st : KV) (positive negative : List CmEntry)
    (topn : Option Nat) : Except KVErr MSResult :=
  let st1 := init_sims sq st false
  -- all_words = {vocab[word].index for word in positive+negative if str and in vocab}
  let allWords := (positive ++ negative).foldl
    (fun (acc : List Nat) e =>
      match e with
      | .ent w =>
        match lookupIdx st1.vocab w with
        | some idx => if idx ∈ acc then acc else acc ++ [idx]
        | none => acc
      | .vec _ => acc) []
  match resolveCm st1 positive with
  | .error err => .error err
  | .ok posT =>
    match resolveCm st1 negative with
    | .error err => .error err
    | .ok negT =>
      -- if not positive: raise ValueError
      if posT = [] then .error .valueError else
      let vn := st1.vectorsNorm.getD []
      let posD := posT.map (fun term => vn.map (fun row => (1 + dotp row term) / 2))
      let negD := negT.map (fun term => vn.map (fun row => (1 + dotp row term) / 2))
      let dists := List.zipWith (fun p q => p / (q + 1 / 1000000))
        (prodRows vn.length posD) (prodRows vn.length negD)
      -- if not topn: return dists
      match topn with
      | none => .ok (.scores dists)
      | some 0 => .ok (.scores dists)
      | some n => .ok (.ranked (rankedResult st1.index2word dists allWords n))

/-- `WordEmbeddingsKeyedVectors.cosine_similarities`: dot products divided
elementwise by the product of the norms. -/
def cosine_similarities (sq : ℚ → ℚ) (v : Vec) (rows : Mat) : List ℚ :=
  let norm := sq (normSq v)
  rows.map (fun row => dotp row v / (norm * sq (normSq row)))

/-- `WordEmbeddingsKeyedVectors.distances(word, ())`: cosine distances from
`word` to every row of the store. -/
def distances (sq : ℚ → ℚ) (st : KV) (word : String) : Except KVErr (List ℚ) :=
  match word_vec st word false with
  | .error err => .error err
  | .ok v => .ok ((cosine_similarities sq v st.vectors).map (fun s => 1 - s))

/-- `BaseKeyedVectors.closer_than`: entities strictly closer to `e1` than
`e2` is, excluding `e1` itself. -/
def closer_than (sq : ℚ → ℚ) (st : KV) (e1 e2 : String) :
    Except KVErr (List String) :=
  match distances sq st e1 with
  | .error err => .error err
  | .ok ds =>
    match lookupIdx st.vocab e1 with
    | none => .error .keyError
    | some i1 =>
      match lookupIdx st.vocab e2 with
      | none => .error .keyError
      | some i2 =>
        let de2 := ds.getD i2 0
        let closer := (List.range ds.length).filter (fun i => ds.getD i 0 < de2)
        .ok ((closer.filter (fun i => i ≠ i1)).map
          (fun i => st.index2word.getD i ""))

/-- `BaseKeyedVectors.rank`: `len(closer_than(e1, e2)) + 1`. -/
def rank (sq : ℚ → ℚ) (st : KV) (e1 e2 : String) : Except KVErr Nat :=
  (closer_than sq st e1 e2).map (fun l => l.length + 1)

/-- `WordEmbeddingsKeyedVectors.similarity`:
`dot(unitvec(self[w1]), unitvec(self[w2]))` (on-demand normalization of
the raw rows, not the cache). -/
def similarity (sq : ℚ → ℚ) (st : KV) (w1 w2 : String) : Except KVErr ℚ :=
  match word_vec st w1 false with
  | .error err => .error err
  | .ok v1 =>
    match word_vec st w2 false with
    | .error err => .error err
    | .ok v2 => .ok (dotp (unitvec sq v1) (unitvec sq v2))

/-- `WordEmbeddingsKeyedVectors.distance`: `1 - similarity(w1, w2)`. -/
def distance (sq : ℚ → ℚ) (st : KV) (w1 w2 : String) : Except KVErr ℚ :=
  (similarity sq st w1 w2).map (fun s => 1 - s)

/-! ### FastTextKeyedVectors -/

/-- `FastTextKeyedVectors` state.  `compatible_hash` selects one of two
concrete hash schemes whose formulas live outside this repository's
source; the selected scheme is abstracted as the `hashFn` parameter the
subword operations take.  `buckets_word` is untouched by the settled
claims and omitted. -/
structure FTKV where
  vectorSize : Nat
  vocab : List (String × Nat)
  vectors : Mat
  index2word : List String
  vectorsNorm : Option Mat
  vectorsVocab : Mat
  vectorsNgrams : Mat
  vectorsNgramsNorm : Option Mat
  minN : Nat
  maxN : Nat
  bucket : Nat
  deriving Repr

/-- Modelled from the spec: `gensim.models.utils_any2vec.ft_ngram_hashes`
is code of this repository that is not under `src/` (only its caller
`keyedvectors.py` is).  Per the spec, it extracts all character n-grams of
lengths `[min_n, max_n]` from the entity string extended with boundary
markers, and hashes each n-gram (via the scheme selected by
`compatible_hash`, here the abstract `hashFn`) to a bucket index in
`[0, bucket_count)`; repeats are kept. -/
def ft_ngram_hashes (hashFn : List Char → Nat) (word : String)
    (minN maxN bucket : Nat) : List Nat :=
  let ext : List Char := '<' :: word.data ++ ['>']
  let ngrams : List (List Char) :=
    ((List.range' minN (maxN + 1 - minN)).map
      (fun n =>
        if n ≤ ext.length then
          (List.range (ext.length - n + 1)).map (fun i => (ext.drop i).take n)
        else [])).flatten
  ngrams.map (fun g => hashFn g % bucket)

/-- `FastTextKeyedVectors.word_vec`: an in-vocabulary word uses its own
stored row (via the superclass); an out-of-vocabulary word with no buckets
is a `KeyError`; otherwise the bucket rows at the word's n-gram hashes are
summed (repeats counted) and averaged — unless the word yields no n-grams
at all, in which case the origin vector is returned (with a warning). -/
def ft_word_vec (hashFn : List Char → Nat) (st : FTKV) (word : String)
    (useNorm : Bool) : Except KVErr Vec :=
  match lookupIdx st.vocab word with
  | some idx =>
    -- super().word_vec(word, use_norm)
    if useNorm then
      match st.vectorsNorm with
      | none => .error .typeError
      | some m =>
        match m.get? idx with
        | some row => .ok row
        | none => .error .indexError
    else
      match st.vectors.get? idx with
      | some row => .ok row
      | none => .error .indexError
  | none =>
    if st.bucket = 0 then .error .keyError
    else
      let weights := if useNorm then st.vectorsNgramsNorm.getD [] else st.vectorsNgrams
      let hashes := ft_ngram_hashes hashFn word st.minN st.maxN st.bucket
      if hashes = [] then
        -- logger.warning(...); return the origin vector
        .ok (zeroVec st.vectorSize)
      else
        .ok (vdiv (hashes.foldl (fun acc nh => vadd acc (weights.getD nh []))
          (zeroVec st.vectorSize)) hashes.length)

/-- `FastTextKeyedVectors.__contains__`: always `True`. -/
def ft_contains (_st : FTKV) (_word : String) : Bool :=
  true

/-- `FastTextKeyedVectors.adjust_vectors`: when buckets exist, recompute
every in-vocabulary row as
`(vectors_vocab[i] + sum of ngram bucket rows) / (ngram count + 1)`. -/
def adjust_vectors (hashFn : List Char → Nat) (st : FTKV) : FTKV :=
  if st.bucket = 0 then st
  else
    let newVecs := st.vocab.foldl
      (fun (m : Mat) p =>
        let hashes := ft_ngram_hashes hashFn p.1 st.minN st.maxN st.bucket
        let wv := hashes.foldl (fun acc nh => vadd acc (st.vectorsNgrams.getD nh []))
          (st.vectorsVocab.getD p.2 [])
        m.set p.2 (vdiv wv (hashes.length + 1))) st.vectors
    { st with vectors := newVecs }

/-! ### The legacy bucket-compaction reversal (`_unpack`) -/

/-- Swap rows `h` and `i` of a matrix (`m[[h, i]] = m[[i, h]]`). -/
def swapRows (m : Mat) (h i : Nat) : Mat :=
  let rh := m.getD h []
  let ri := m.getD i []
  (m.set h ri).set i rh

/-- `_unpack(m, num_rows, hash2index)`.  `hash2index` is the legacy
`dict` in insertion order; `pad` stands for the `num_rows - len(m)` rows of
seeded uniform noise `_pad_random` appends (the PRNG itself is outside the
settled claims).  The source swaps, in place and in one direction only,
first the pairs lying inside the original row range with `h < i`, then the
pairs whose hash lands in the appended range. -/
def _unpack (m : Mat) (numRows : Nat) (hash2index : List (Nat × Nat))
    (pad : Mat) : Mat :=
  let origRows := m.length
  if origRows = numRows then m
  else
    let m1 := m ++ pad
    let swap := (hash2index.filter (fun p => p.1 < p.2 ∧ p.2 < origRows)) ++
      (hash2index.filter (fun p => origRows ≤ p.1))
    swap.foldl (fun acc p => swapRows acc p.1 p.2) m1

/-- `_unpack_copy(m, num_rows, hash2index)`: the documented-equivalent,
allocate-fresh variant: start from `num_rows` random rows and write
`n[src] = m[dst]` for every `(src, dst)` pair of the map. -/
def _unpack_copy (m : Mat) (numRows : Nat) (hash2index : List (Nat × Nat))
    (pad : Mat) : Mat :=
  let origRows := m.length
  if origRows = numRows then m
  else
    hash2index.foldl (fun (n : Mat) p => n.set p.1 (m.getD p.2 [])) pad

/-! ## Helper lemmas shared across claims -/

/-- `add` constructs the updated store field by field and never touches the
`vectors_norm` field. -/
theorem add_vectorsNorm (st : KV) (entities : List String) (weights : Mat)
    (replace : Bool) : (add st entities weights replace).vectorsNorm = st.vectorsNorm :=
  rfl

theorem ratSqrt_zero : ratSqrt 0 = 0 := by
  have h : isqrt 0 = 0 := by decide
  norm_num [ratSqrt, h]

theorem ratSqrt_one : ratSqrt 1 = 1 := by
  have h : isqrt 1 = 1 := by decide
  norm_num [ratSqrt, h]

theorem ratSqrt_25 : ratSqrt 25 = 5 := by
  have h1 : isqrt 25 = 5 := by decide
  have h2 : isqrt 1 = 1 := by decide
  have h3 : Int.toNat 25 = 25 := rfl
  norm_num [ratSqrt, h1, h2, h3]

/-! ## Settled claims -/

/-- C10: for every subword store and every entity string `w` — in- or
out-of-vocabulary alike — the membership test `__contains__` returns
`True`; it never distinguishes two entities. -/
theorem claim10_ft_contains_always_true (st : FTKV) (w1 w2 : String) :
    ft_contains st w1 = true ∧ ft_contains st w1 = ft_contains st w2 :=
  ⟨rfl, rfl⟩

/-- C1 (amended): `add` leaves the normalized-vector cache exactly as it
was — it is *not* invalidated; a query served afterwards reuses a cache
computed before the append, because `init_sims` only recomputes when the
cache is absent. -/
theorem claim1_add_never_invalidates_cache (st : KV) (entities : List String)
    (weights : Mat) (replace : Bool) :
    (add st entities weights replace).vectorsNorm = st.vectorsNorm :=
  add_vectorsNorm st entities weights replace

/-- A one-entity store whose normalized cache has just been computed by
`init_sims` (so the cache is genuinely "a normalized cache computed before
the append"). -/
def stC1 : KV :=
  init_sims ratSqrt
    { vectorSize := 2, vocab := [("a", 0)], vectors := [[1, 0]],
      index2word := ["a"], vectorsNorm := none } false

set_option maxHeartbeats 2000000 in
/-- C1 (counterexample): appending the new entity `"b"` changes the vector
matrix and its row count, yet the pre-append cache survives (`some [[1,0]]`,
not absent), and the subsequently served query `most_similar(["a"], topn=5)`
reads it: it returns `[]`, silently missing `"b"` — whereas the same query
with the cache invalidated returns `[("b", 1)]`. -/
theorem claim1_counterexample :
    (add stC1 ["b"] [[1, 0]] false).vectors ≠ stC1.vectors ∧
    (add stC1 ["b"] [[1, 0]] false).vectorsNorm = some [[1, 0]] ∧
    most_similar ratSqrt (add stC1 ["b"] [[1, 0]] false)
      [.ent "a"] [] (some 5) none = .ok (.ranked []) ∧
    most_similar ratSqrt
      { add stC1 ["b"] [[1, 0]] false with vectorsNorm := none }
      [.ent "a"] [] (some 5) none = .ok (.ranked [("b", 1)]) := by
  have hab : decide ("a" = "b") = false := rfl
  refine ⟨?_, ?_, ?_, ?_⟩
  · simp only [stC1, add, init_sims, _l2_norm, normSq, vdiv, lookupIdx, dictContains,
      dictInsert, hab, List.find?, List.filter, List.map, List.foldl, List.sum_cons,
      List.sum_nil]
    norm_num [ratSqrt_one]
  · rw [add_vectorsNorm]
    norm_num [stC1, init_sims, _l2_norm, normSq, vdiv, ratSqrt_one]
  · simp only [stC1, add, init_sims, _l2_norm, normSq, vdiv, most_similar, rankedResult, resolveTerms,
      resolveGo, word_vec, wrapDefault, lookupIdx, dictContains, dictInsert, unitvec,
      vsumFrom, vadd, vsmul, zeroVec, dotp, argsortDesc, rankRel, hab,
      List.insertionSort, List.orderedInsert, List.range, List.range.loop,
      List.find?, List.filter, List.map, List.foldl, List.zipWith, List.sum_cons,
      List.sum_nil, List.replicate, List.take, List.length, List.append_eq,
      List.cons_append, List.nil_append]
    norm_num [ratSqrt_one, vadd, List.zipWith]
  · simp only [stC1, add, init_sims, _l2_norm, normSq, vdiv, most_similar, rankedResult, resolveTerms,
      resolveGo, word_vec, wrapDefault, lookupIdx, dictContains, dictInsert, unitvec,
      vsumFrom, vadd, vsmul, zeroVec, dotp, argsortDesc, rankRel, hab,
      List.insertionSort, List.orderedInsert, List.range, List.range.loop,
      List.find?, List.filter, List.map, List.foldl, List.zipWith, List.sum_cons,
      List.sum_nil, List.replicate, List.take, List.length, List.append_eq,
      List.cons_append, List.nil_append]
    norm_num [ratSqrt_one, vadd, List.zipWith]

/-- C2: `_unpack` on the compact 3-row table `[[10],[20],[30]]` with
`bucket_count = 4` and map `{0: 2, 1: 0, 2: 1}` (hash → compact row,
injective onto `[0, 3)`).  The claim requires expanded row `hash` to equal
compact row `compact_row`; for the pair `(1, 0)` that means row 1 must
become `[10]`, but the source's one-directional swap set skips every pair
with `compact_row < hash < compact_rows` and leaves row 1 at `[20]`.  The
documented-equivalent `_unpack_copy` does place `[10]` at row 1 on the same
input, so `_unpack` contradicts its own documentation. -/
theorem claim2_unpack_failing_input :
    _unpack [[10], [20], [30]] 4 [(0, 2), (1, 0), (2, 1)] [[99]] =
      [[30], [20], [10], [99]] ∧
    (([[10], [20], [30]] : Mat).getD 0 []) = [10] ∧
    (([[30], [20], [10], [99]] : Mat).getD 1 []) ≠ ([10] : Vec) ∧
    _unpack_copy [[10], [20], [30]] 4 [(0, 2), (1, 0), (2, 1)]
      [[99], [99], [99], [99]] = [[30], [10], [20], [99]] := by
  refine ⟨by decide, by decide, by decide, by decide⟩

/-- Self-dot of a scaled vector: `⟨v/s, v/s⟩ = ‖v‖² / s²` (unconditional in
ℚ thanks to `x / 0 = 0`). -/
theorem dotp_vdiv_self (v : Vec) (s : ℚ) :
    dotp (vdiv v s) (vdiv v s) = normSq v / (s * s) := by
  induction v with
  | nil => simp [dotp, vdiv, normSq]
  | cons x xs ih =>
    simp only [dotp, vdiv, normSq, List.map_cons, List.zipWith_cons_cons,
      List.sum_cons] at *
    rw [ih, div_mul_div_comm, div_add_div_same]

/-- A one-entity store holding the zero vector. -/
def stC9z : KV :=
  { vectorSize := 2, vocab := [("z", 0)], vectors := [[0, 0]],
    index2word := ["z"], vectorsNorm := none }

/-- C9 (counterexample): for the in-vocabulary entity `"z"` whose stored
vector is the zero vector, `similarity(z, z)` is `0`, not `1`, and
`distance(z, z)` is `1`, not `0` (the square root of `0` is `0` exactly, so
this is not a floating-tolerance artifact: `unitvec` leaves the zero vector
unchanged and the dot product is exactly `0`). -/
theorem claim9_counterexample :
    similarity ratSqrt stC9z "z" "z" = .ok 0 ∧
    distance ratSqrt stC9z "z" "z" = .ok 1 ∧
    (0 : ℚ) ≠ 1 := by
  refine ⟨?_, ?_, by norm_num⟩ <;>
    ·  simp only [stC9z, similarity, distance, word_vec, lookupIdx, unitvec, normSq,
         vdiv, dotp, List.find?, List.map, Except.map]
       norm_num [ratSqrt_zero]

/-- C9 (amended): for every in-vocabulary entity `e` whose stored vector is
nonzero (witnessed by a square root of its squared norm that is positive
and exact), `similarity(e, e) = 1` and `distance(e, e) = 0` exactly. -/
theorem claim9_selfsim (sq : ℚ → ℚ) (st : KV) (e : String) (idx : Nat) (v : Vec)
    (h1 : lookupIdx st.vocab e = some idx) (h2 : st.vectors.get? idx = some v)
    (h3 : 0 < sq (normSq v)) (h4 : sq (normSq v) * sq (normSq v) = normSq v) :
    similarity sq st e e = .ok 1 ∧ distance sq st e e = .ok 0 := by
  have hne : normSq v ≠ 0 := by
    rw [← h4]
    exact ne_of_gt (mul_pos h3 h3)
  have hsim : similarity sq st e e = .ok 1 := by
    simp only [similarity, word_vec, h1, h2, if_neg, Bool.false_eq_true,
      Bool.false_ne_true, ite_false]
    rw [unitvec]
    simp only [if_pos h3]
    rw [dotp_vdiv_self, h4, div_self hne]
  exact ⟨hsim, by rw [distance, hsim]; norm_num [Except.map]⟩

/-- A one-entity store holding the vector `[3, 4]` (norm `5`). -/
def stC9w : KV :=
  { vectorSize := 2, vocab := [("e", 0)], vectors := [[3, 4]],
    index2word := ["e"], vectorsNorm := none }

/-- Witness for C9's amended theorem at the concrete store `stC9w`. -/
theorem claim9_witness :
    similarity ratSqrt stC9w "e" "e" = .ok 1 ∧
    distance ratSqrt stC9w "e" "e" = .ok 0 :=
  claim9_selfsim ratSqrt stC9w "e" 0 [3, 4] rfl rfl
    (by norm_num [normSq, ratSqrt_25])
    (by norm_num [normSq, ratSqrt_25])

/-- `find?` skips a prefix in which nothing matches. -/
theorem find?_append_none {α : Type} (p : α → Bool) (l1 l2 : List α)
    (h : l1.find? p = none) : (l1 ++ l2).find? p = l2.find? p := by
  induction l1 with
  | nil => simp
  | cons x xs ih =>
    rcases hx : p x with _ | _
    · rw [List.find?_cons_of_neg _ (by simp [hx])] at h
      rw [List.cons_append, List.find?_cons_of_neg _ (by simp [hx])]
      exact ih h
    · rw [List.find?_cons_of_pos _ hx] at h
      simp at h

/-- Looking up a freshly appended key. -/
theorem lookupIdx_append_self (d : List (String × Nat)) (k : String) (n : Nat)
    (h : lookupIdx d k = none) : lookupIdx (d ++ [(k, n)]) k = some n := by
  unfold lookupIdx at *
  rcases hf : d.find? (fun p => p.1 = k) with _ | p
  · rw [find?_append_none _ _ _ hf]
    simp
  · rw [hf] at h
    simp at h

/-- C6: on a well-formed store not yet containing `e`, `get(e)` after
`append([e], [v])` returns `v`; after a further `append([e], [v2],
replace=false)` it still returns `v`; after `append([e], [v2],
replace=true)` instead, it returns `v2`. -/
theorem claim6_add_get (st : KV) (e : String) (v v2 : Vec)
    (hwf : WF st) (hnew : dictContains st.vocab e = false)
    (hv : v.length = st.vectorSize) (hv2 : v2.length = st.vectorSize) :
    get_vector (add st [e] [v] false) e = .ok v ∧
    get_vector (add (add st [e] [v] false) [e] [v2] false) e = .ok v ∧
    get_vector (add (add st [e] [v] false) [e] [v2] true) e = .ok v2 := by
  obtain ⟨hmap, hnd, hlen1, hlen2, hw, hcache⟩ := hwf
  have hfind : lookupIdx st.vocab e = none := by
    unfold dictContains at hnew
    exact Option.not_isSome_iff_eq_none.mp (by simp [hnew])
  have hfind' : st.vocab.find? (fun p => p.1 = e) = none := by
    unfold lookupIdx at hfind
    exact Option.map_eq_none'.mp hfind
  have hn : st.vocab.length = st.vectors.length := by rw [hlen1, hlen2]
  -- the store after the first append
  have hstep1 : add st [e] [v] false =
      { st with vocab := st.vocab ++ [(e, st.vocab.length)],
                index2word := st.index2word ++ [e],
                vectors := st.vectors ++ [v] } := by
    unfold add dictInsert
    simp [dictContains, lookupIdx, hfind', List.filter_cons, List.zip]
  have hlook1 : lookupIdx (st.vocab ++ [(e, st.vocab.length)]) e =
      some st.vocab.length := lookupIdx_append_self _ _ _ hfind
  have hget1 : (st.vectors ++ [v]).get? st.vocab.length = some v := by
    rw [hn]
    exact List.get?_concat_length _ _
  have h1 : get_vector (add st [e] [v] false) e = .ok v := by
    rw [hstep1]
    unfold get_vector
    simp only [hlook1, hget1]
  -- the second append sees `e` in vocab
  have hold : dictContains (st.vocab ++ [(e, st.vocab.length)]) e = true := by
    simp [dictContains, hlook1]
  have hstep2 : ∀ w : Vec, add (add st [e] [v] false) [e] [w] false =
      add st [e] [v] false := by
    intro w
    rw [hstep1]
    unfold add
    simp [hold]
  have hstep3 : add (add st [e] [v] false) [e] [v2] true =
      { st with vocab := st.vocab ++ [(e, st.vocab.length)],
                index2word := st.index2word ++ [e],
                vectors := (st.vectors ++ [v]).set st.vocab.length v2 } := by
    rw [hstep1]
    unfold add
    simp [hold, hlook1, List.filter_cons]
  have hget3 : ((st.vectors ++ [v]).set st.vocab.length v2).get? st.vocab.length =
      some v2 := by
    apply List.get?_set_eq_of_lt
    rw [List.length_append, hn]
    simp
  refine ⟨h1, ?_, ?_⟩
  · rw [hstep2 v2, h1]
  · rw [hstep3]
    unfold get_vector
    simp only [hlook1, hget3]

/-- An empty two-dimensional store. -/
def stC6 : KV :=
  { vectorSize := 2, vocab := [], vectors := [], index2word := [],
    vectorsNorm := none }

/-- Witness for C6 at the empty store with `e = "x"`, `v = [1, 2]`,
`v2 = [3, 4]`. -/
theorem claim6_witness :
    get_vector (add stC6 ["x"] [[1, 2]] false) "x" = .ok [1, 2] ∧
    get_vector (add (add stC6 ["x"] [[1, 2]] false) ["x"] [[3, 4]] false) "x" =
      .ok [1, 2] ∧
    get_vector (add (add stC6 ["x"] [[1, 2]] false) ["x"] [[3, 4]] true) "x" =
      .ok [3, 4] :=
  claim6_add_get stC6 "x" [1, 2] [3, 4] (by decide) (by decide) (by decide)
    (by decide)

/-- A successful vocab lookup names a pair of the association list whose
key is the looked-up entity. -/
theorem lookupIdx_mem (d : List (String × Nat)) (k : String) (i : Nat)
    (h : lookupIdx d k = some i) : (k, i) ∈ d := by
  unfold lookupIdx at h
  rcases hf : d.find? (fun p => p.1 = k) with _ | p
  · rw [hf] at h
    simp at h
  · rw [hf] at h
    have hk : p.1 = k := by
      have hpk := List.find?_some hf
      simp only [decide_eq_true_eq] at hpk
      exact hpk
    have hm : p ∈ d := List.mem_of_find?_eq_some hf
    simp only [Option.map_some', Option.some_inj] at h
    rw [← hk, ← h]
    exact hm

/-- C8: on a well-formed store, for in-vocabulary `e1`, `e2`:
`closer_than(e1, e2)` succeeds, `rank(e1, e2)` is its size plus one, and
`e1` never appears in it. -/
theorem claim8_rank_closer_than (sq : ℚ → ℚ) (st : KV) (e1 e2 : String)
    (hwf : WF st) (h1 : dictContains st.vocab e1 = true)
    (h2 : dictContains st.vocab e2 = true) :
    ∃ l, closer_than sq st e1 e2 = .ok l ∧
      rank sq st e1 e2 = .ok (l.length + 1) ∧ e1 ∉ l := by
  obtain ⟨hmap, hnd, hlen1, hlen2, hw, hcache⟩ := hwf
  obtain ⟨i1, hi1⟩ : ∃ i, lookupIdx st.vocab e1 = some i := by
    unfold dictContains at h1
    exact Option.isSome_iff_exists.mp h1
  obtain ⟨i2, hi2⟩ : ∃ i, lookupIdx st.vocab e2 = some i := by
    unfold dictContains at h2
    exact Option.isSome_iff_exists.mp h2
  have hm1 : st.index2word.get? i1 = some e1 := hmap _ (lookupIdx_mem _ _ _ hi1)
  have hlt1 : i1 < st.index2word.length := by
    by_contra hc
    rw [List.get?_eq_none.mpr (Nat.le_of_not_lt hc)] at hm1
    exact Option.noConfusion hm1
  obtain ⟨v1, hv1⟩ : ∃ v, st.vectors.get? i1 = some v :=
    ⟨_, List.get?_eq_get (by rw [hlen2]; exact hlt1)⟩
  have hds : distances sq st e1 =
      .ok ((cosine_similarities sq v1 st.vectors).map (fun s => 1 - s)) := by
    unfold distances word_vec
    rw [hi1]
    simp only [Bool.false_eq_true, if_false, ite_false, hv1]
  set ds := (cosine_similarities sq v1 st.vectors).map (fun s => 1 - s) with hds_def
  have hdslen : ds.length = st.index2word.length := by
    simp [hds_def, cosine_similarities, hlen2]
  set l := (((List.range ds.length).filter
      (fun i => ds.getD i 0 < ds.getD i2 0)).filter (fun i => i ≠ i1)).map
      (fun i => st.index2word.getD i "") with hl_def
  have hct : closer_than sq st e1 e2 = .ok l := by
    unfold closer_than
    rw [hds, hi1, hi2]
  refine ⟨l, hct, by simp [rank, hct, Except.map], ?_⟩
  intro hmem
  rw [hl_def] at hmem
  obtain ⟨i, hi, hieq⟩ := List.mem_map.mp hmem
  have hine1 : i ≠ i1 := by
    have := List.of_mem_filter hi
    simpa using this
  have hirange : i < ds.length := by
    have := List.mem_filter.mp (List.mem_filter.mp hi).1
    simpa [List.mem_range] using this.1
  have hilt : i < st.index2word.length := by rw [← hdslen]; exact hirange
  have hgi : st.index2word.get? i = some e1 := by
    have hgd : (st.index2word.get? i).getD "" = e1 := hieq
    rcases hg : st.index2word.get? i with _ | w
    · rw [List.get?_eq_none] at hg
      omega
    · rw [hg] at hgd
      simp only [Option.getD_some] at hgd
      rw [hgd]
  apply hine1
  apply List.getElem?_inj hilt hnd
  rw [← List.get?_eq_getElem?, ← List.get?_eq_getElem?, hgi, hm1]

/-- A three-entity store for ranking witnesses. -/
def stC8 : KV :=
  { vectorSize := 2, vocab := [("cat", 0), ("dog", 1), ("fish", 2)],
    vectors := [[1, 0], [0, 1], [3, 4]],
    index2word := ["cat", "dog", "fish"], vectorsNorm := none }

/-- Witness for C8 at the concrete three-entity store. -/
theorem claim8_witness :
    ∃ l, closer_than ratSqrt stC8 "cat" "dog" = .ok l ∧
      rank ratSqrt stC8 "cat" "dog" = .ok (l.length + 1) ∧ "cat" ∉ l :=
  claim8_rank_closer_than ratSqrt stC8 "cat" "dog" (by decide) (by decide)
    (by decide)

/-! ### Vector-arithmetic helpers for the subword claims -/

theorem vadd_length (a b : Vec) : (vadd a b).length = min a.length b.length := by
  simp [vadd]

theorem vadd_zeroVec_left (v : Vec) (n : Nat) (h : v.length = n) :
    vadd (zeroVec n) v = v := by
  induction v generalizing n with
  | nil => simp [vadd, zeroVec]
  | cons x xs ih =>
    cases n with
    | zero => simp at h
    | succ m =>
      simp only [vadd, zeroVec, List.replicate, List.zipWith_cons_cons, zero_add]
      have := ih m (by simpa using h)
      simp only [vadd, zeroVec] at this
      rw [this]

theorem vadd_zeroVec_right (v : Vec) (n : Nat) (h : v.length = n) :
    vadd v (zeroVec n) = v := by
  induction v generalizing n with
  | nil => simp [vadd, zeroVec]
  | cons x xs ih =>
    cases n with
    | zero => simp at h
    | succ m =>
      simp only [vadd, zeroVec, List.replicate, List.zipWith_cons_cons, add_zero]
      have := ih m (by simpa using h)
      simp only [vadd, zeroVec] at this
      rw [this]

theorem vadd_assoc (a b c : Vec) : vadd (vadd a b) c = vadd a (vadd b c) := by
  induction a generalizing b c with
  | nil => simp [vadd]
  | cons x xs ih =>
    cases b with
    | nil => simp [vadd]
    | cons y ys =>
      cases c with
      | nil => simp [vadd]
      | cons z zs =>
        simp only [vadd, List.zipWith_cons_cons]
        rw [add_assoc]
        have := ih ys zs
        simp only [vadd] at this
        rw [this]

/-- Summing a list of width-`n` rows starting from a width-`n` base equals
the base plus the sum started from zero. -/
theorem foldl_vadd_shift (rows : List Vec) (base : Vec) (n : Nat)
    (hb : base.length = n) (hr : ∀ r ∈ rows, r.length = n) :
    rows.foldl vadd base = vadd base (vsumFrom n rows) := by
  induction rows generalizing base with
  | nil => simp [vsumFrom, vadd_zeroVec_right base n hb]
  | cons r rs ih =>
    have hrn : r.length = n := hr r (by simp)
    have hbase' : (vadd base r).length = n := by
      rw [vadd_length, hb, hrn]
      simp
    have hl := ih (vadd base r) hbase' (fun x hx => hr x (by simp [hx]))
    have hz : (vadd (zeroVec n) r) = r := vadd_zeroVec_left r n hrn
    calc (r :: rs).foldl vadd base = rs.foldl vadd (vadd base r) := rfl
      _ = vadd (vadd base r) (vsumFrom n rs) := hl
      _ = vadd base (vadd r (vsumFrom n rs)) := vadd_assoc _ _ _
      _ = vadd base (rs.foldl vadd r) := by
          rw [ih r hrn (fun x hx => hr x (by simp [hx]))]
      _ = vadd base (vsumFrom n (r :: rs)) := by
          have hv : vsumFrom n (r :: rs) = rs.foldl vadd r := by
            simp only [vsumFrom, List.foldl_cons, hz]
          rw [hv]

/-- The bucket-summing loop of `ft_word_vec` is the sum of the mapped
bucket rows. -/
theorem foldl_vadd_map (weights : Mat) (hashes : List Nat) (n : Nat) :
    hashes.foldl (fun acc nh => vadd acc (weights.getD nh [])) (zeroVec n) =
      vsumFrom n (hashes.map (fun nh => weights.getD nh [])) := by
  rw [vsumFrom, List.foldl_map]

/-- Every produced n-gram hash lies below the bucket count. -/
theorem ft_ngram_hashes_lt (hashFn : List Char → Nat) (w : String)
    (minN maxN bucket : Nat) (hb : 0 < bucket) :
    ∀ h ∈ ft_ngram_hashes hashFn w minN maxN bucket, h < bucket := by
  intro h hm
  unfold ft_ngram_hashes at hm
  obtain ⟨g, _, hg⟩ := List.mem_map.mp hm
  rw [← hg]
  exact Nat.mod_lt _ hb

/-- Shared helper: an out-of-vocabulary composition with buckets present
and at least one n-gram is the mean of the bucket rows at the n-gram
hashes. -/
theorem ft_word_vec_oov_mean (hashFn : List Char → Nat) (st : FTKV)
    (w : String) (hoov : lookupIdx st.vocab w = none) (hpos : 0 < st.bucket)
    (hs : List Nat)
    (hhs : ft_ngram_hashes hashFn w st.minN st.maxN st.bucket = hs)
    (hne : hs ≠ []) :
    ft_word_vec hashFn st w false =
      .ok (vdiv (vsumFrom st.vectorSize
        (hs.map (fun nh => st.vectorsNgrams.getD nh []))) hs.length) := by
  unfold ft_word_vec
  rw [hoov]
  simp only [Nat.pos_iff_ne_zero.mp hpos, if_false, ite_false, hhs, hne,
    Bool.false_eq_true]
  rw [foldl_vadd_map]

/-- C7: composing an out-of-vocabulary entity fails with `KeyError` when
`bucket == 0`; with `bucket > 0` and zero extractable n-grams it returns the
origin vector (warn-and-return, not an error); and in the only remaining
case — `bucket > 0` with at least one n-gram — the result is exactly the
mean of the bucket rows at the n-gram hashes (no default is ever silently
substituted). -/
theorem claim7_oov_error_handling (hashFn : List Char → Nat) (st : FTKV)
    (w : String) (hoov : lookupIdx st.vocab w = none) :
    (st.bucket = 0 → ft_word_vec hashFn st w false = .error .keyError) ∧
    (0 < st.bucket →
      ft_ngram_hashes hashFn w st.minN st.maxN st.bucket = [] →
      ft_word_vec hashFn st w false = .ok (zeroVec st.vectorSize)) ∧
    (0 < st.bucket →
      ∀ hs, ft_ngram_hashes hashFn w st.minN st.maxN st.bucket = hs → hs ≠ [] →
      ft_word_vec hashFn st w false =
        .ok (vdiv (vsumFrom st.vectorSize
          (hs.map (fun nh => st.vectorsNgrams.getD nh []))) hs.length)) := by
  refine ⟨?_, ?_, ?_⟩
  · intro hz
    unfold ft_word_vec
    rw [hoov]
    simp [hz]
  · intro hpos hng
    unfold ft_word_vec
    rw [hoov]
    simp [Nat.pos_iff_ne_zero.mp hpos, hng]
  · intro hpos hs hhs hne
    exact ft_word_vec_oov_mean hashFn st w hoov hpos hs hhs hne

/-- A concrete hash scheme for witnesses (any function works: the claims
hold for every scheme). -/
def hashW : List Char → Nat := fun g => g.foldl (fun a c => a * 31 + c.toNat) 7

/-- A small subword store: one in-vocabulary entity, four buckets. -/
def stFT : FTKV :=
  { vectorSize := 2, vocab := [("cat", 0)], vectors := [[1, 1]],
    index2word := ["cat"], vectorsNorm := none,
    vectorsVocab := [[2, 2]],
    vectorsNgrams := [[1, 0], [0, 2], [4, 4], [6, 8]],
    vectorsNgramsNorm := none, minN := 3, maxN := 3, bucket := 4 }

/-- Witness for C7 at the out-of-vocabulary entity `"cats"` of `stFT` (and,
for the degenerate branch, the theorem also applies to the empty string,
which yields no trigrams). -/
theorem claim7_witness :
    (stFT.bucket = 0 → ft_word_vec hashW stFT "cats" false = .error .keyError) ∧
    (0 < stFT.bucket →
      ft_ngram_hashes hashW "cats" stFT.minN stFT.maxN stFT.bucket = [] →
      ft_word_vec hashW stFT "cats" false = .ok (zeroVec stFT.vectorSize)) ∧
    (0 < stFT.bucket →
      ∀ hs, ft_ngram_hashes hashW "cats" stFT.minN stFT.maxN stFT.bucket = hs →
      hs ≠ [] →
      ft_word_vec hashW stFT "cats" false =
        .ok (vdiv (vsumFrom stFT.vectorSize
          (hs.map (fun nh => stFT.vectorsNgrams.getD nh []))) hs.length)) :=
  claim7_oov_error_handling hashW stFT "cats" (by decide)

/-- A fold of row-sets at indices none of which is `i` leaves row `i`
unchanged. -/
theorem foldl_set_get_of_ne (l : List (String × Nat)) (f : String → Nat → Vec)
    (m : Mat) (i : Nat) (h : ∀ p ∈ l, p.2 ≠ i) :
    (l.foldl (fun acc p => acc.set p.2 (f p.1 p.2)) m).get? i = m.get? i := by
  induction l generalizing m with
  | nil => rfl
  | cons q qs ih =>
    have hq : q.2 ≠ i := h q (by simp)
    rw [List.foldl_cons, ih _ (fun p hp => h p (by simp [hp]))]
    exact List.get?_set_ne _ _ hq

/-- A fold of row-sets driven by an index-nodup association list writes
exactly `f w i` into row `i` for each member `(w, i)`. -/
theorem foldl_set_get (l : List (String × Nat)) (f : String → Nat → Vec)
    (m : Mat) (w : String) (i : Nat) (hmem : (w, i) ∈ l)
    (hnd : (l.map Prod.snd).Nodup) (hlen : i < m.length) :
    (l.foldl (fun acc p => acc.set p.2 (f p.1 p.2)) m).get? i = some (f w i) := by
  induction l generalizing m with
  | nil => simp at hmem
  | cons q qs ih =>
    rw [List.map_cons, List.nodup_cons] at hnd
    rcases List.mem_cons.mp hmem with heq | hrest
    · have hq2 : q.2 = i := by rw [← heq]
      have hnotin : ∀ p ∈ qs, p.2 ≠ i := by
        intro p hp
        rw [← hq2]
        intro hcontra
        exact hnd.1 (by rw [← hcontra]; exact List.mem_map_of_mem Prod.snd hp)
      rw [List.foldl_cons, foldl_set_get_of_ne _ _ _ _ hnotin, ← heq]
      exact List.get?_set_eq_of_lt _ hlen
    · rw [List.foldl_cons]
      exact ih _ hrest hnd.2 (by rw [List.length_set]; exact hlen)

/-- C4: with buckets present, (a) `adjust_vectors` rewrites every
in-vocabulary row `i` to the mean of the entity's base vector and the
bucket rows at its n-gram hashes, dividing by the n-gram count plus one
(repeated hashes counted repeatedly); and (b) `word_vec` composes an
out-of-vocabulary entity with at least one n-gram as the mean of only the
bucket rows at its n-gram hashes. -/
theorem claim4_adjust_and_compose (hashFn : List Char → Nat) (st : FTKV)
    (hb : 0 < st.bucket)
    (hnd : (st.vocab.map Prod.snd).Nodup)
    (hidx : ∀ p ∈ st.vocab, p.2 < st.vectors.length)
    (hvoc : ∀ p ∈ st.vocab, p.2 < st.vectorsVocab.length)
    (hvw : ∀ row ∈ st.vectorsVocab, row.length = st.vectorSize)
    (hng : st.vectorsNgrams.length = st.bucket)
    (hngw : ∀ row ∈ st.vectorsNgrams, row.length = st.vectorSize) :
    (∀ w i, (w, i) ∈ st.vocab →
      (adjust_vectors hashFn st).vectors.get? i =
        some (vdiv
          (vadd (st.vectorsVocab.getD i [])
            (vsumFrom st.vectorSize
              ((ft_ngram_hashes hashFn w st.minN st.maxN st.bucket).map
                (fun nh => st.vectorsNgrams.getD nh []))))
          ((ft_ngram_hashes hashFn w st.minN st.maxN st.bucket).length + 1))) ∧
    (∀ w hs, lookupIdx st.vocab w = none →
      ft_ngram_hashes hashFn w st.minN st.maxN st.bucket = hs → hs ≠ [] →
      ft_word_vec hashFn st w false =
        .ok (vdiv (vsumFrom st.vectorSize
          (hs.map (fun nh => st.vectorsNgrams.getD nh []))) hs.length)) := by
  constructor
  · intro w i hmem
    have hrow : ∀ zrow ∈ (ft_ngram_hashes hashFn w st.minN st.maxN st.bucket).map
        (fun nh => st.vectorsNgrams.getD nh []), zrow.length = st.vectorSize := by
      intro zrow hz
      obtain ⟨nh, hnh, heq⟩ := List.mem_map.mp hz
      have hlt : nh < st.vectorsNgrams.length := by
        rw [hng]
        exact ft_ngram_hashes_lt hashFn w _ _ _ hb nh hnh
      have hmemrow : st.vectorsNgrams.getD nh [] ∈ st.vectorsNgrams := by
        have : st.vectorsNgrams.getD nh [] = st.vectorsNgrams.get ⟨nh, hlt⟩ := by
          have hget : st.vectorsNgrams.get? nh =
              some (st.vectorsNgrams.get ⟨nh, hlt⟩) := List.get?_eq_get hlt
          show (st.vectorsNgrams.get? nh).getD [] = _
          rw [hget]
          rfl
        rw [this]
        exact List.get_mem _ _ hlt
      rw [← heq]
      exact hngw _ hmemrow
    have hbase : (st.vectorsVocab.getD i []).length = st.vectorSize := by
      have hlt := hvoc _ hmem
      have hmemrow : st.vectorsVocab.getD i [] ∈ st.vectorsVocab := by
        have hget : st.vectorsVocab.get? i =
            some (st.vectorsVocab.get ⟨i, hlt⟩) := List.get?_eq_get hlt
        have : st.vectorsVocab.getD i [] = st.vectorsVocab.get ⟨i, hlt⟩ := by
          show (st.vectorsVocab.get? i).getD [] = _
          rw [hget]
          rfl
        rw [this]
        exact List.get_mem _ _ hlt
      exact hvw _ hmemrow
    unfold adjust_vectors
    simp only [Nat.pos_iff_ne_zero.mp hb, if_false, ite_false]
    rw [foldl_set_get st.vocab
      (fun w i => vdiv
        ((ft_ngram_hashes hashFn w st.minN st.maxN st.bucket).foldl
          (fun acc nh => vadd acc (st.vectorsNgrams.getD nh []))
          (st.vectorsVocab.getD i []))
        ((ft_ngram_hashes hashFn w st.minN st.maxN st.bucket).length + 1))
      st.vectors w i hmem hnd (hidx _ hmem)]
    have hfold : (ft_ngram_hashes hashFn w st.minN st.maxN st.bucket).foldl
        (fun acc nh => vadd acc (st.vectorsNgrams.getD nh []))
        (st.vectorsVocab.getD i []) =
        ((ft_ngram_hashes hashFn w st.minN st.maxN st.bucket).map
          (fun nh => st.vectorsNgrams.getD nh [])).foldl vadd
          (st.vectorsVocab.getD i []) :=
      (List.foldl_map _ _ _ _).symm
    rw [hfold, foldl_vadd_shift _ _ st.vectorSize hbase hrow]
  · intro w hs hoov hhs hne
    exact ft_word_vec_oov_mean hashFn st w hoov hb hs hhs hne

/-- Witness for C4 at the concrete subword store `stFT` (entity `"cat"`,
four buckets, hash scheme `hashW`). -/
theorem claim4_witness :
    (∀ w i, (w, i) ∈ stFT.vocab →
      (adjust_vectors hashW stFT).vectors.get? i =
        some (vdiv
          (vadd (stFT.vectorsVocab.getD i [])
            (vsumFrom stFT.vectorSize
              ((ft_ngram_hashes hashW w stFT.minN stFT.maxN stFT.bucket).map
                (fun nh => stFT.vectorsNgrams.getD nh []))))
          ((ft_ngram_hashes hashW w stFT.minN stFT.maxN stFT.bucket).length + 1))) ∧
    (∀ w hs, lookupIdx stFT.vocab w = none →
      ft_ngram_hashes hashW w stFT.minN stFT.maxN stFT.bucket = hs → hs ≠ [] →
      ft_word_vec hashW stFT w false =
        .ok (vdiv (vsumFrom stFT.vectorSize
          (hs.map (fun nh => stFT.vectorsNgrams.getD nh []))) hs.length)) :=
  claim4_adjust_and_compose hashW stFT (by decide) (by decide) (by decide)
    (by decide) (by decide) (by decide) (by decide)

/-! ### Helpers for the query-result claims -/

/-- The entity a query entry names, if it is a named (not raw-vector)
entry. -/
def entryName : QEntry → Option String
  | .ent w => some w
  | .entW w _ => some w
  | .vec _ => none
  | .vecW _ _ => none

theorem init_sims_false_vocab (sq : ℚ → ℚ) (st : KV) :
    (init_sims sq st false).vocab = st.vocab := by
  unfold init_sims
  cases st.vectorsNorm <;> rfl

theorem init_sims_false_index2word (sq : ℚ → ℚ) (st : KV) :
    (init_sims sq st false).index2word = st.index2word := by
  unfold init_sims
  cases st.vectorsNorm <;> rfl

theorem init_sims_false_vectors (sq : ℚ → ℚ) (st : KV) :
    (init_sims sq st false).vectors = st.vectors := by
  unfold init_sims
  cases st.vectorsNorm <;> rfl

/-- On a well-formed store, the normalized matrix served after `init_sims`
never has more rows than there are entities (it can have fewer when a stale
cache survived an `add`). -/
theorem init_sims_false_norm_length (sq : ℚ → ℚ) (st : KV) (hwf : WF st) :
    ((init_sims sq st false).vectorsNorm.getD []).length ≤
      st.index2word.length := by
  obtain ⟨-, -, -, hlen2, -, hcache⟩ := hwf
  cases h : st.vectorsNorm with
  | none =>
    have hst : init_sims sq st false =
        { st with vectorsNorm := some (_l2_norm sq st.vectors) } := by
      unfold init_sims
      rw [h]
    rw [hst]
    simp only [Option.getD_some, _l2_norm, List.length_map]
    exact le_of_eq hlen2
  | some m =>
    have hst : init_sims sq st false = st := by
      unfold init_sims
      rw [h]
    rw [hst, h]
    rw [h] at hcache
    simpa using hcache.1

theorem rankRel_trans (d : List ℚ) : ∀ i j k : Nat,
    rankRel d i j → rankRel d j k → rankRel d i k := by
  intro i j k hij hjk
  rcases hij with h1 | ⟨h1, h1'⟩ <;> rcases hjk with h2 | ⟨h2, h2'⟩
  · exact Or.inl (lt_trans h2 h1)
  · exact Or.inl (h2 ▸ h1)
  · exact Or.inl (by rw [h1]; exact h2)
  · exact Or.inr ⟨h1.trans h2, le_trans h1' h2'⟩

theorem rankRel_total (d : List ℚ) : ∀ i j : Nat,
    rankRel d i j ∨ rankRel d j i := by
  intro i j
  rcases lt_trichotomy (d.getD i 0) (d.getD j 0) with h | h | h
  · exact Or.inr (Or.inl h)
  · rcases Nat.le_total i j with hle | hle
    · exact Or.inl (Or.inr ⟨h, hle⟩)
    · exact Or.inr (Or.inr ⟨h.symm, hle⟩)
  · exact Or.inl (Or.inl h)

/-- `argsort` is sorted by descending score (ties by ascending index). -/
theorem argsortDesc_sorted (d : List ℚ) :
    List.Sorted (rankRel d) (argsortDesc d) := by
  letI : IsTotal Nat (rankRel d) := ⟨rankRel_total d⟩
  letI : IsTrans Nat (rankRel d) := ⟨rankRel_trans d⟩
  exact List.sorted_insertionSort (rankRel d) (List.range d.length)

/-- Every index `argsort` emits addresses an actual score. -/
theorem argsortDesc_mem (d : List ℚ) (i : Nat) (h : i ∈ argsortDesc d) :
    i < d.length := by
  unfold argsortDesc at h
  rw [List.mem_insertionSort, List.mem_range] at h
  exact h

/-- The term-resolution loop only grows the input-index set, and records
the index of every named entry it resolves. -/
theorem resolveGo_allWords (st : KV) (entries : List QEntry)
    (acc : List Vec × List Nat) (res : List Vec × List Nat)
    (hok : resolveGo st entries acc = .ok res) :
    (∀ x ∈ acc.2, x ∈ res.2) ∧
    (∀ w c idx, (QEntry.entW w c) ∈ entries →
      lookupIdx st.vocab w = some idx → idx ∈ res.2) := by
  induction entries generalizing acc with
  | nil =>
    simp only [resolveGo, Except.ok.injEq] at hok
    subst hok
    exact ⟨fun x hx => hx, fun w c idx hmem => by simp at hmem⟩
  | cons e rest ih =>
    cases e with
    | vecW v c =>
      rw [resolveGo] at hok
      obtain ⟨hmono, hrec⟩ := ih _ hok
      refine ⟨fun x hx => hmono x hx, ?_⟩
      intro w c' idx hmem hlook
      rcases List.mem_cons.mp hmem with heq | hrest'
      · exact absurd heq (by simp)
      · exact hrec w c' idx hrest' hlook
    | vec v =>
      rw [resolveGo] at hok
      obtain ⟨hmono, hrec⟩ := ih _ hok
      refine ⟨fun x hx => hmono x hx, ?_⟩
      intro w c' idx hmem hlook
      rcases List.mem_cons.mp hmem with heq | hrest'
      · exact absurd heq (by simp)
      · exact hrec w c' idx hrest' hlook
    | ent w0 =>
      rw [resolveGo] at hok
      cases hwv : word_vec st w0 true with
      | error err => rw [hwv] at hok; exact absurd hok (by simp)
      | ok x =>
        rw [hwv] at hok
        obtain ⟨hmono, hrec⟩ := ih _ hok
        refine ⟨fun y hy => hmono y hy, ?_⟩
        intro w c' idx hmem hlook
        rcases List.mem_cons.mp hmem with heq | hrest'
        · exact absurd heq (by simp)
        · exact hrec w c' idx hrest' hlook
    | entW w0 c0 =>
      rw [resolveGo] at hok
      cases hwv : word_vec st w0 true with
      | error err => rw [hwv] at hok; exact absurd hok (by simp)
      | ok x =>
        rw [hwv] at hok
        obtain ⟨hmono, hrec⟩ := ih _ hok
        refine ⟨?_, ?_⟩
        · intro y hy
          apply hmono
          cases hlook0 : lookupIdx st.vocab w0 with
          | none => simpa [hlook0] using hy
          | some idx0 =>
            simp only [hlook0]
            by_cases hin : idx0 ∈ acc.2
            · simpa [hin] using hy
            · simp only [hin, if_false, ite_false]
              exact List.mem_append_left _ hy
        · intro w c' idx hmem hlook
          rcases List.mem_cons.mp hmem with heq | hrest'
          · injection heq with hw hc
            subst hw
            apply hmono
            simp only [hlook]
            by_cases hin : idx ∈ acc.2
            · simpa [hin]
            · simp only [hin, if_false, ite_false]
              exact List.mem_append_right _ (by simp)
          · exact hrec w c' idx hrest' hlook

/-- When a named entry is wrapped with a default weight it becomes a
weighted named entry for the same word. -/
theorem wrapDefault_name (e : QEntry) (w : String) (c : ℚ)
    (h : entryName e = some w) : ∃ c', wrapDefault c e = .entW w c' := by
  cases e with
  | ent w0 =>
    simp only [entryName, Option.some_inj] at h
    subst h
    exact ⟨c, rfl⟩
  | entW w0 c0 =>
    simp only [entryName, Option.some_inj] at h
    subst h
    exact ⟨c0, rfl⟩
  | vec v => simp [entryName] at h
  | vecW v c0 => simp [entryName] at h

/-- The contract of the ranked tail of `most_similar`/`most_similar_cosmul`:
at most `n` results, never an entity whose index is among the excluded
input indices, scores non-increasing. -/
theorem ranked_props (i2w : List String) (vocab : List (String × Nat))
    (dists : List ℚ) (aw : List Nat) (n : Nat)
    (hnd : i2w.Nodup)
    (hmap : ∀ p ∈ vocab, i2w.get? p.2 = some p.1)
    (hlen : dists.length ≤ i2w.length) :
    (rankedResult i2w dists aw n).length ≤ n ∧
    (∀ pr ∈ rankedResult i2w dists aw n,
      ∀ w idx, lookupIdx vocab w = some idx → idx ∈ aw → pr.1 ≠ w) ∧
    List.Pairwise (fun a b : String × ℚ => b.2 ≤ a.2)
      (rankedResult i2w dists aw n) := by
  unfold rankedResult
  refine ⟨List.length_take_le _ _, ?_, ?_⟩
  · intro pr hpr w idx hlook hidxaw
    have hpr1 := List.mem_of_mem_take hpr
    obtain ⟨sim, hsimf, hf⟩ := List.mem_map.mp hpr1
    obtain ⟨hsimb, hpred⟩ := List.mem_filter.mp hsimf
    have hnotaw : sim ∉ aw := by simpa using hpred
    have hsima : sim ∈ argsortDesc dists := List.mem_of_mem_take hsimb
    have hsimlt : sim < i2w.length :=
      lt_of_lt_of_le (argsortDesc_mem _ _ hsima) hlen
    intro hcontra
    have hget : i2w.get? sim = some w := by
      have hgd : (i2w.get? sim).getD "" = w := by
        rw [show (i2w.get? sim).getD "" = i2w.getD sim "" from rfl]
        rw [← hcontra, ← hf]
      rcases hg : i2w.get? sim with _ | w'
      · rw [List.get?_eq_none] at hg
        omega
      · rw [hg] at hgd
        simp only [Option.getD_some] at hgd
        rw [hgd]
    have hgetidx : i2w.get? idx = some w := hmap _ (lookupIdx_mem _ _ _ hlook)
    have hsimeq : sim = idx := by
      apply List.getElem?_inj hsimlt hnd
      rw [← List.get?_eq_getElem?, ← List.get?_eq_getElem?, hget, hgetidx]
    exact hnotaw (hsimeq ▸ hidxaw)
  · have h0 : List.Pairwise (rankRel dists) (argsortDesc dists) :=
      argsortDesc_sorted dists
    have h1 := h0.sublist (List.take_sublist (n + aw.length) _)
    have h2 : List.Pairwise (rankRel dists)
        (((argsortDesc dists).take (n + aw.length)).filter
          (fun sim => sim ∉ aw)) :=
      h1.sublist (List.filter_sublist _)
    have h3 : List.Pairwise (fun a b : String × ℚ => b.2 ≤ a.2)
        ((((argsortDesc dists).take (n + aw.length)).filter
          (fun sim => sim ∉ aw)).map
          (fun sim => (i2w.getD sim "", dists.getD sim 0))) := by
      rw [List.pairwise_map]
      apply h2.imp
      intro i j hij
      rcases hij with hlt | ⟨heq, -⟩
      · exact le_of_lt hlt
      · exact le_of_eq heq.symm
    exact h3.sublist (List.take_sublist n _)

/-- C3: on a well-formed store, a `most_similar(..., topn=N)` query whose
positive/negative entries all name in-vocabulary entities and which returns
a ranked list, returns at most `N` results, never an entity given in the
inputs, with scores in non-increasing order. -/
theorem claim3_most_similar_contract (sq : ℚ → ℚ) (st : KV)
    (positive negative : List QEntry) (N : Nat) (restrict : Option Nat)
    (rs : List (String × ℚ)) (hwf : WF st)
    (hvocab : ∀ e ∈ positive ++ negative, ∃ w, entryName e = some w ∧
      dictContains st.vocab w = true)
    (hok : most_similar sq st positive negative (some N) restrict =
      .ok (.ranked rs)) :
    rs.length ≤ N ∧
    (∀ pr ∈ rs, ∀ e ∈ positive ++ negative, entryName e ≠ some pr.1) ∧
    List.Pairwise (fun a b : String × ℚ => b.2 ≤ a.2) rs := by
  by_cases hN0 : N = 0
  · subst hN0
    unfold most_similar at hok
    rw [if_pos rfl] at hok
    simp only [Except.ok.injEq, MSResult.ranked.injEq] at hok
    subst hok
    simp
  · unfold most_similar at hok
    rw [if_neg (by simp [hN0])] at hok
    dsimp only [] at hok
    rcases hres : resolveTerms (init_sims sq st false)
        (positive.map (wrapDefault 1) ++ negative.map (wrapDefault (-1)))
      with err | ⟨mean, aw⟩ <;> rw [hres] at hok <;> dsimp only [] at hok
    · simp at hok
    · by_cases hmean : mean = []
      · rw [if_pos hmean] at hok
        simp at hok
      · rw [if_neg hmean] at hok
        simp only [Except.ok.injEq, MSResult.ranked.injEq] at hok
        rw [init_sims_false_index2word] at hok
        obtain ⟨hmap, hnd, hlen1, hlen2, hww, hcache⟩ := hwf
        have hlen : (((match restrict with
            | none => (init_sims sq st false).vectorsNorm.getD []
            | some r =>
              ((init_sims sq st false).vectorsNorm.getD []).take r)).map
            (fun row => dotp row (unitvec sq
              (vdiv (vsumFrom (init_sims sq st false).vectorSize mean)
                mean.length)))).length ≤ st.index2word.length := by
          rw [List.length_map]
          have hvnlen := init_sims_false_norm_length sq st
            ⟨hmap, hnd, hlen1, hlen2, hww, hcache⟩
          cases restrict with
          | none => exact hvnlen
          | some r =>
            rw [List.length_take]
            exact le_trans (min_le_right _ _) hvnlen
        obtain ⟨ha, hb, hc⟩ := ranked_props st.index2word st.vocab _ aw N hnd
          hmap hlen
        subst hok
        refine ⟨ha, ?_, hc⟩
        intro pr hpr e he hcontra
        obtain ⟨w, hname, hdict⟩ := hvocab e he
        have hw : w = pr.1 := by
          rw [hname] at hcontra
          exact Option.some_inj.mp hcontra
        obtain ⟨idx, hlook⟩ : ∃ i, lookupIdx st.vocab w = some i := by
          apply Option.isSome_iff_exists.mp
          unfold dictContains at hdict
          exact hdict
        have hres' : resolveGo (init_sims sq st false)
            (positive.map (wrapDefault 1) ++ negative.map (wrapDefault (-1)))
            ([], []) = .ok (mean, aw) := hres
        have hlook1 : lookupIdx (init_sims sq st false).vocab w = some idx := by
          rw [init_sims_false_vocab]
          exact hlook
        have hidxaw : idx ∈ aw := by
          rcases List.mem_append.mp he with hpos | hneg
          · obtain ⟨c', hc'⟩ := wrapDefault_name e w 1 hname
            exact (resolveGo_allWords _ _ _ _ hres').2 w c' idx
              (List.mem_append_left _ (hc' ▸ List.mem_map_of_mem _ hpos)) hlook1
          · obtain ⟨c', hc'⟩ := wrapDefault_name e w (-1) hname
            exact (resolveGo_allWords _ _ _ _ hres').2 w c' idx
              (List.mem_append_right _ (hc' ▸ List.mem_map_of_mem _ hneg)) hlook1
        exact hb pr hpr w idx hlook hidxaw hw.symm

set_option maxHeartbeats 2000000 in
/-- Witness for C3: the query `most_similar(positive=["cat"], topn=2)` on
the concrete three-entity store, whose ranked result is
`[("fish", 3/5), ("dog", 0)]`. -/
theorem claim3_witness :
    ([("fish", (3 : ℚ)/5), ("dog", 0)] : List (String × ℚ)).length ≤ 2 ∧
    (∀ pr ∈ ([("fish", (3 : ℚ)/5), ("dog", 0)] : List (String × ℚ)),
      ∀ e ∈ [QEntry.ent "cat"] ++ [], entryName e ≠ some pr.1) ∧
    List.Pairwise (fun a b : String × ℚ => b.2 ≤ a.2)
      ([("fish", (3 : ℚ)/5), ("dog", 0)] : List (String × ℚ)) :=
  claim3_most_similar_contract ratSqrt stC8 [QEntry.ent "cat"] [] 2 none
    [("fish", (3 : ℚ)/5), ("dog", 0)] (by decide)
    (by
      intro e he
      simp only [List.append_nil, List.mem_singleton] at he
      subst he
      exact ⟨"cat", rfl, by decide⟩)
    (by
      have hcc : decide ("cat" = "cat") = true := rfl
      simp only [stC8, init_sims, _l2_norm, normSq, vdiv, most_similar,
        rankedResult, resolveTerms, resolveGo, word_vec, wrapDefault, lookupIdx,
        dictContains, dictInsert, unitvec, vsumFrom, vadd, vsmul, zeroVec, dotp,
        argsortDesc, rankRel, hcc, List.insertionSort, List.orderedInsert,
        List.range, List.range.loop, List.find?, List.filter, List.map,
        List.foldl, List.zipWith, List.sum_cons, List.sum_nil, List.replicate,
        List.take, List.length, List.append_eq, List.cons_append,
        List.nil_append]
      norm_num [ratSqrt_one, ratSqrt_25, vadd, List.zipWith, rankRel, List.getD])

/-! ### Helpers for the cosmul-equivalence claim -/

/-- The entity ranking carried by a query result (empty for a raw score
vector). -/
def msWords : MSResult → List String
  | .scores _ => []
  | .ranked rs => rs.map Prod.fst

theorem vsmul_one (x : Vec) : vsmul 1 x = x := by
  simp [vsmul]

theorem vdiv_one (x : Vec) : vdiv x 1 = x := by
  simp [vdiv]

theorem dotp_vdiv_right (a b : Vec) (s : ℚ) :
    dotp a (vdiv b s) = dotp a b / s := by
  induction a generalizing b with
  | nil => simp [dotp, vdiv]
  | cons x xs ih =>
    cases b with
    | nil => simp [dotp, vdiv]
    | cons y ys =>
      simp only [dotp, vdiv, List.map_cons, List.zipWith_cons_cons,
        List.sum_cons] at *
      rw [ih ys, ← mul_div_assoc, div_add_div_same]

theorem zipWith_mul_ones (l : List ℚ) (n : Nat) (h : l.length = n) :
    List.zipWith (· * ·) (List.replicate n 1) l = l := by
  induction l generalizing n with
  | nil => simp
  | cons x xs ih =>
    cases n with
    | zero => simp at h
    | succ m =>
      simp only [List.replicate, List.zipWith_cons_cons, one_mul]
      rw [ih m (by simpa using h)]

theorem prodRows_single (l : List ℚ) (n : Nat) (h : l.length = n) :
    prodRows n [l] = l := by
  unfold prodRows
  simp only [List.foldl_cons, List.foldl_nil]
  exact zipWith_mul_ones l n h

theorem zipWith_apply_replicate (f : ℚ → ℚ → ℚ) (l : List ℚ) (n : Nat)
    (q0 : ℚ) (h : l.length = n) :
    List.zipWith f l (List.replicate n q0) = l.map (fun p => f p q0) := by
  induction l generalizing n with
  | nil => simp
  | cons x xs ih =>
    cases n with
    | zero => simp at h
    | succ m =>
      simp only [List.replicate, List.zipWith_cons_cons, List.map_cons]
      rw [ih m (by simpa using h)]

theorem getD_map_lt {α : Type} (l : List α) (g : α → ℚ) (i : Nat)
    (h : i < l.length) :
    (l.map g).getD i 0 = g (l.get ⟨i, h⟩) := by
  have : (l.map g).get? i = some (g (l.get ⟨i, h⟩)) := by
    rw [List.get?_map, List.get?_eq_get h]
    rfl
  show ((l.map g).get? i).getD 0 = _
  rw [this]
  rfl

theorem orderedInsert_congr (r s : Nat → Nat → Prop) [DecidableRel r]
    [DecidableRel s] (a : Nat) (l : List Nat)
    (h : ∀ b ∈ l, (r a b ↔ s a b)) :
    l.orderedInsert r a = l.orderedInsert s a := by
  induction l with
  | nil => rfl
  | cons b t ih =>
    simp only [List.orderedInsert]
    by_cases hrb : r a b
    · rw [if_pos hrb, if_pos ((h b (by simp)).mp hrb)]
    · rw [if_neg hrb, if_neg (fun hs => hrb ((h b (by simp)).mpr hs))]
      rw [ih (fun c hc => h c (by simp [hc]))]

theorem insertionSort_congr (r s : Nat → Nat → Prop) [DecidableRel r]
    [DecidableRel s] (l : List Nat)
    (h : ∀ a ∈ l, ∀ b ∈ l, (r a b ↔ s a b)) :
    l.insertionSort r = l.insertionSort s := by
  induction l with
  | nil => rfl
  | cons a t ih =>
    simp only [List.insertionSort]
    rw [ih (fun x hx y hy => h x (by simp [hx]) y (by simp [hy]))]
    apply orderedInsert_congr
    intro b hb
    rw [List.mem_insertionSort] at hb
    exact h a (by simp) b (by simp [hb])

/-- Two score vectors of equal length with identical pairwise comparisons
have identical argsorts. -/
theorem argsortDesc_congr (d1 d2 : List ℚ) (hlen : d1.length = d2.length)
    (h : ∀ i < d1.length, ∀ j < d1.length, (rankRel d1 i j ↔ rankRel d2 i j)) :
    argsortDesc d1 = argsortDesc d2 := by
  unfold argsortDesc
  rw [← hlen]
  apply insertionSort_congr
  intro a ha b hb
  rw [List.mem_range] at ha hb
  exact h a ha b hb

/-- The ranked words depend on the scores only through the argsort. -/
theorem rankedResult_words (i2w : List String) (d1 d2 : List ℚ)
    (aw : List Nat) (n : Nat) (h : argsortDesc d1 = argsortDesc d2) :
    (rankedResult i2w d1 aw n).map Prod.fst =
      (rankedResult i2w d2 aw n).map Prod.fst := by
  unfold rankedResult
  rw [h, ← List.map_take, ← List.map_take, List.map_map, List.map_map]
  rfl

theorem init_sims_false_vectorSize (sq : ℚ → ℚ) (st : KV) :
    (init_sims sq st false).vectorSize = st.vectorSize := by
  unfold init_sims
  cases st.vectorsNorm <;> rfl

/-- After `init_sims` the cache is always present, and on a well-formed
store its rows have the store's width. -/
theorem init_sims_false_norm_some (sq : ℚ → ℚ) (st : KV) (hwf : WF st) :
    ∃ vnm, (init_sims sq st false).vectorsNorm = some vnm ∧
      ∀ row ∈ vnm, row.length = st.vectorSize := by
  obtain ⟨-, -, -, -, hww, hcache⟩ := hwf
  cases h : st.vectorsNorm with
  | none =>
    refine ⟨_l2_norm sq st.vectors, ?_, ?_⟩
    · unfold init_sims
      rw [h]
    · intro row hrow
      obtain ⟨r, hr, heq⟩ := List.mem_map.mp hrow
      rw [← heq, vdiv, List.length_map]
      exact hww r hr
  | some m =>
    have hst : init_sims sq st false = st := by
      unfold init_sims
      rw [h]
    rw [h] at hcache
    exact ⟨m, by rw [hst, h], hcache.2⟩

/-- Pairwise ranking comparisons agree between two elementwise transforms
of the same underlying scores whenever the transforms agree on strict
order and on equality. -/
theorem rankRel_map_iff (l : List Vec) (f : Vec → ℚ) (g1 g2 : ℚ → ℚ)
    (hlt : ∀ a b, g1 a < g1 b ↔ g2 a < g2 b)
    (heq : ∀ a b, (g1 a = g1 b ↔ g2 a = g2 b))
    (i j : Nat) (hi : i < l.length) (hj : j < l.length) :
    (rankRel (l.map (fun v => g1 (f v))) i j ↔
      rankRel (l.map (fun v => g2 (f v))) i j) := by
  have hi1 : i < (l.map (fun v => g1 (f v))).length := by simpa using hi
  have hj1 : j < (l.map (fun v => g1 (f v))).length := by simpa using hj
  unfold rankRel
  rw [getD_map_lt l _ i hi, getD_map_lt l _ j hj, getD_map_lt l _ i hi,
    getD_map_lt l _ j hj, hlt, heq]

/-- The multiplicative variant's score transform agrees with any positive
scaling (or the identity) on both strict order and equality. -/
theorem cosmul_transform_agrees (s : ℚ) (hs : 0 < s) (a b : ℚ) :
    ((a / s < b / s ↔ (1 + a) / 2 / (1 + 1 / 1000000) <
        (1 + b) / 2 / (1 + 1 / 1000000)) ∧
      (a / s = b / s ↔ (1 + a) / 2 / (1 + 1 / 1000000) =
        (1 + b) / 2 / (1 + 1 / 1000000))) := by
  have hK : (0 : ℚ) < 1 + 1 / 1000000 := by norm_num
  have h2 : (0 : ℚ) < 2 := by norm_num
  constructor
  · rw [div_lt_div_iff_of_pos_right hs, div_lt_div_iff_of_pos_right hK,
      div_lt_div_iff_of_pos_right h2, add_lt_add_iff_left]
  · rw [div_left_inj' (ne_of_gt hs), div_left_inj' (ne_of_gt hK),
      div_left_inj' (ne_of_gt h2), add_right_inj]

/-- The identity transform also agrees with the multiplicative variant's
transform. -/
theorem cosmul_transform_agrees_id (a b : ℚ) :
    ((a < b ↔ (1 + a) / 2 / (1 + 1 / 1000000) <
        (1 + b) / 2 / (1 + 1 / 1000000)) ∧
      (a = b ↔ (1 + a) / 2 / (1 + 1 / 1000000) =
        (1 + b) / 2 / (1 + 1 / 1000000))) := by
  have h := cosmul_transform_agrees 1 (by norm_num) a b
  simpa using h

set_option maxHeartbeats 1000000 in
/-- C5: for a query with a single positive in-vocabulary entity and no
negative entities, the sequence of entities returned by
`most_similar_cosmul` equals the one returned by `most_similar` with the
same `topn` (and the two functions also fail identically when the entity
is missing or the cache row is out of range). -/
theorem claim5_cosmul_ranking_matches (sq : ℚ → ℚ) (st : KV) (w : String)
    (N : Nat) (hwf : WF st) (hN : 1 ≤ N) :
    (most_similar sq st [QEntry.ent w] [] (some N) none).map msWords =
      (most_similar_cosmul sq st [CmEntry.ent w] [] (some N)).map msWords := by
  obtain ⟨M, rfl⟩ : ∃ M, N = M + 1 := ⟨N - 1, by omega⟩
  have hents : (([QEntry.ent w].map (wrapDefault 1)) ++
      (([] : List QEntry).map (wrapDefault (-1)))) = [QEntry.entW w 1] := rfl
  obtain ⟨vnm, hvnm, hvwidth⟩ := init_sims_false_norm_some sq st hwf
  cases hlw : lookupIdx (init_sims sq st false).vocab w with
  | none =>
    have hwv : word_vec (init_sims sq st false) w true = .error .keyError := by
      unfold word_vec
      rw [hlw]
    have hms : most_similar sq st [QEntry.ent w] [] (some (M + 1)) none =
        .error .keyError := by
      unfold most_similar
      rw [if_neg (by simp)]
      dsimp only []
      rw [hents]
      rw [show resolveTerms (init_sims sq st false) [QEntry.entW w 1] =
        Except.error KVErr.keyError from by simp [resolveTerms, resolveGo, hwv]]
    have hcm : most_similar_cosmul sq st [CmEntry.ent w] [] (some (M + 1)) =
        .error .keyError := by
      unfold most_similar_cosmul
      dsimp only []
      simp [hwv, resolveCm]
    rw [hms, hcm]
  | some idx =>
    cases hx : vnm.get? idx with
    | none =>
      have hwv : word_vec (init_sims sq st false) w true =
          .error .indexError := by
        simp only [word_vec, hlw, hvnm, hx, if_true, ite_true]
      have hms : most_similar sq st [QEntry.ent w] [] (some (M + 1)) none =
          .error .indexError := by
        unfold most_similar
        rw [if_neg (by simp)]
        dsimp only []
        rw [hents]
        rw [show resolveTerms (init_sims sq st false) [QEntry.entW w 1] =
          Except.error KVErr.indexError from by
            simp [resolveTerms, resolveGo, hwv]]
      have hcm : most_similar_cosmul sq st [CmEntry.ent w] [] (some (M + 1)) =
          .error .indexError := by
        unfold most_similar_cosmul
        dsimp only []
        simp [hwv, resolveCm]
      rw [hms, hcm]
    | some x =>
      have hwv : word_vec (init_sims sq st false) w true = .ok x := by
        simp only [word_vec, hlw, hvnm, hx, if_true, ite_true]
      have hxlen : x.length = (init_sims sq st false).vectorSize := by
        rw [init_sims_false_vectorSize]
        exact hvwidth x (List.get?_mem hx)
      have hres : resolveTerms (init_sims sq st false) [QEntry.entW w 1] =
          .ok ([vsmul 1 x], [idx]) := by
        simp [resolveTerms, resolveGo, hwv, hlw]
      have hmv : vdiv (vsumFrom (init_sims sq st false).vectorSize
          [vsmul 1 x]) ((List.length [vsmul 1 x] : ℕ) : ℚ) = x := by
        simp only [List.length_cons, List.length_nil, Nat.cast_one,
          Nat.zero_add]
        rw [vsmul_one]
        rw [show vsumFrom (init_sims sq st false).vectorSize [x] =
          vadd (zeroVec (init_sims sq st false).vectorSize) x from rfl]
        rw [vadd_zeroVec_left x _ hxlen]
        exact vdiv_one x
      have hms : most_similar sq st [QEntry.ent w] [] (some (M + 1)) none =
          .ok (.ranked (rankedResult (init_sims sq st false).index2word
            (vnm.map (fun row => dotp row (unitvec sq x))) [idx] (M + 1))) := by
        unfold most_similar
        rw [if_neg (by simp)]
        dsimp only []
        rw [hents, hres]
        dsimp only []
        rw [if_neg (by simp)]
        rw [hvnm]
        simp only [Option.getD_some, hmv]
      have hcm : most_similar_cosmul sq st [CmEntry.ent w] [] (some (M + 1)) =
          .ok (.ranked (rankedResult (init_sims sq st false).index2word
            (vnm.map (fun row => (1 + dotp row x) / 2 / (1 + 1 / 1000000)))
            [idx] (M + 1))) := by
        unfold most_similar_cosmul
        dsimp only []
        rw [hvnm]
        simp only [Option.getD_some, List.append_nil, List.foldl_cons,
          List.foldl_nil, hlw, List.not_mem_nil, if_false, ite_false,
          List.nil_append, resolveCm, hwv, Except.map]
        rw [if_neg (by simp)]
        simp only [List.map_cons, List.map_nil]
        rw [prodRows_single _ vnm.length (by simp),
          show prodRows vnm.length ([] : List (List ℚ)) =
            List.replicate vnm.length 1 from rfl]
        rw [zipWith_apply_replicate _ _ vnm.length 1 (by simp)]
        rw [List.map_map]
        rfl
      rw [hms, hcm]
      simp only [Except.map, msWords]
      refine congrArg Except.ok ?_
      apply rankedResult_words
      by_cases hs : 0 < sq (normSq x)
      · have hd1 : vnm.map (fun row => dotp row (unitvec sq x)) =
            vnm.map (fun row => dotp row x / sq (normSq x)) := by
          apply List.map_eq_map_iff.mpr
          intro row hrow
          rw [unitvec]
          simp only [if_pos hs]
          exact dotp_vdiv_right row x (sq (normSq x))
        rw [hd1]
        apply argsortDesc_congr _ _ (by simp)
        intro i hi j hj
        simp only [List.length_map] at hi hj
        exact rankRel_map_iff vnm (fun row => dotp row x)
          (fun t => t / sq (normSq x))
          (fun t => (1 + t) / 2 / (1 + 1 / 1000000))
          (fun a b => (cosmul_transform_agrees _ hs a b).1)
          (fun a b => (cosmul_transform_agrees _ hs a b).2) i j hi hj
      · have hd1 : vnm.map (fun row => dotp row (unitvec sq x)) =
            vnm.map (fun row => dotp row x) := by
          apply List.map_eq_map_iff.mpr
          intro row hrow
          rw [unitvec]
          simp only [if_neg hs]
        rw [hd1]
        apply argsortDesc_congr _ _ (by simp)
        intro i hi j hj
        simp only [List.length_map] at hi hj
        exact rankRel_map_iff vnm (fun row => dotp row x) (fun t => t)
          (fun t => (1 + t) / 2 / (1 + 1 / 1000000))
          (fun a b => (cosmul_transform_agrees_id a b).1)
          (fun a b => (cosmul_transform_agrees_id a b).2) i j hi hj

/-- Witness for C5 at the concrete three-entity store with the single
positive in-vocabulary entity `"cat"` and `topn = 2`. -/
theorem claim5_witness :
    (most_similar ratSqrt stC8 [QEntry.ent "cat"] [] (some 2) none).map
        msWords =
      (most_similar_cosmul ratSqrt stC8 [CmEntry.ent "cat"] [] (some 2)).map
        msWords :=
  claim5_cosmul_ranking_matches ratSqrt stC8 "cat" 2 (by decide) (by decide)

end Gensim
